import Mathlib

/-!
Verification development for the stock-tui watchlist/history core.

The Python source keeps a JSON config with an ordered `history` list of
ticker symbols (oldest first) and a `pinned` list of sticky symbols.  The
functions below are shallow embeddings of the relevant operations:

  * `submitSymbol` / `onInputSubmitted` — `StockTuiApp.on_input_submitted`
    in `main.py` (history update on ticker submission, 100-entry cap,
    save and fetch).
  * `navigateHistory` — the up/down branch of `StockTuiApp.on_key`.
  * `pinToggle` — the `"p"` branch of `Watchlist.on_key`.
  * `deleteSymbol` — the `"d"`/`"delete"` branch of `Watchlist.on_key`.
  * `jumpToPosition` — the digit-key branch of `Watchlist.on_key`.
  * `load_config` / `save_config` / `updateDoc` — `utils.py`
    (read-merge-write of the JSON document).

Python list primitives are embedded as explicit recursions so that the
embedding mirrors the source statement by statement:
`list.remove` is `removeFirst` (first occurrence only), `list.insert` is
`insertAt` (index clamped to the length), `list.pop(i)` is `removeAt`,
and the `for`-loop that scans `history` for the first entry belonging to
`pinned` is `firstPinnedIdx` (length of the list when no entry is pinned).
-/

/-- Python `history.remove(symbol)`: drop the first occurrence of `symbol`
(identity when absent; the source always guards the call with
`if symbol in history`, where `remove` on an absent element would raise). -/
def removeFirst (symbol : String) : List String → List String
  | [] => []
  | s :: rest => if s = symbol then rest else s :: removeFirst symbol rest

/-- Python `history.insert(idx, symbol)`: insert before position `idx`,
appending when `idx` is at or beyond the end. -/
def insertAt : Nat → String → List String → List String
  | 0, symbol, l => symbol :: l
  | _ + 1, symbol, [] => [symbol]
  | n + 1, symbol, s :: rest => s :: insertAt n symbol rest

/-- Python `history.pop(idx)` (the list that remains): remove the element at
position `idx`; identity when `idx` is out of range. -/
def removeAt : Nat → List String → List String
  | _, [] => []
  | 0, _ :: rest => rest
  | n + 1, s :: rest => s :: removeAt n rest

/-- The scan `for i, s in enumerate(history): if s in pinned: ... break`
with fallback `len(history)`: index of the first entry of the list that
belongs to `pinned`, or the length of the list when none does. -/
def firstPinnedIdx (pinned : List String) : List String → Nat
  | [] => 0
  | s :: rest => if s ∈ pinned then 0 else firstPinnedIdx pinned rest + 1

/-- Observable outcome of `StockTuiApp.on_input_submitted`: the new history,
the (never modified) pinned list, whether `save_config` was called, and
whether `fetch_stock_data` was started. -/
structure SubmitOutcome where
  history : List String
  pinned : List String
  saved : Bool
  fetched : Bool
deriving DecidableEq

/-- Insertion phase of `on_input_submitted` (before the capacity check):
if the symbol is pinned the history is untouched, otherwise the symbol is
removed and reinserted at the first index whose entry is pinned. -/
def submitInsertPhase (symbol : String) (history pinned : List String) : List String :=
  if symbol ∈ pinned then history
  else
    let h1 := removeFirst symbol history
    insertAt (firstPinnedIdx pinned h1) symbol h1

/-- Body of `on_input_submitted` for a nonempty stripped symbol: insertion
phase, then `if len(history) > 100: history.pop(0)`, then
`save_config({"history": history})` and `fetch_stock_data(symbol)`. -/
def submitSymbol (symbol : String) (history pinned : List String) : SubmitOutcome :=
  let h1 := submitInsertPhase symbol history pinned
  let h2 := if 100 < h1.length then h1.tail else h1
  ⟨h2, pinned, true, true⟩

/-- Python `value.strip()`: drop whitespace from both ends of the string. -/
def pyStrip (s : String) : String :=
  String.mk (((s.data.dropWhile Char.isWhitespace).reverse.dropWhile
    Char.isWhitespace).reverse)

/-- Python `value.upper()`: uppercase every character. -/
def pyUpper (s : String) : String :=
  String.mk (s.data.map Char.toUpper)

/-- Full `on_input_submitted`: strip and uppercase the raw input; when the
result is empty (`if symbol:` fails) the whole body is skipped — no state
change, no save, no fetch. -/
def onInputSubmitted (raw : String) (history pinned : List String) : SubmitOutcome :=
  let symbol := pyUpper (pyStrip raw)
  if symbol = "" then ⟨history, pinned, false, false⟩
  else submitSymbol symbol history pinned

/-- Python `visual_history.index(current)` wrapped in `try/except`: index of
the first occurrence, `none` when absent. -/
def findIdxOr (current : String) : List String → Option Nat
  | [] => none
  | s :: rest => if s = current then some 0 else (findIdxOr current rest).map (· + 1)

/-- The up/down branch of `StockTuiApp.on_key`: view the reversed history as
circular, locate the current symbol (position `-1` when absent), move one
step in the requested direction with Python's sign-of-divisor `%`, and
return the symbol there (`none` when the history is empty, where the source
returns without changing anything). -/
def navigateHistory (history : List String) (current : String) (up : Bool) : Option String :=
  let visual := history.reverse
  if visual.length = 0 then none
  else
    let ci : Int := match findIdxOr current visual with
      | some i => (i : Int)
      | none => -1
    let ni : Int := (if up then ci - 1 else ci + 1) % (visual.length : Int)
    some (visual.getD ni.toNat "")

/-- The `"p"` branch of `Watchlist.on_key` on the selected symbol: unpin
(remove from `pinned`, move to the end of the unpinned block) or pin
(append to `pinned`, move to the start of the pinned block).  Note that in
both branches the source updates `pinned` before scanning for the first
pinned index. -/
def pinToggle (symbol : String) (history pinned : List String) :
    List String × List String :=
  if symbol ∈ pinned then
    let p1 := removeFirst symbol pinned
    let h1 := removeFirst symbol history
    (insertAt (firstPinnedIdx p1 h1) symbol h1, p1)
  else
    let p1 := pinned ++ [symbol]
    let h1 := removeFirst symbol history
    (insertAt (firstPinnedIdx p1 h1) symbol h1, p1)

/-- The `"d"`/`"delete"` branch of `Watchlist.on_key`: remove the selected
symbol from the history; `save_config({"history": history})` leaves the
persisted `pinned` key untouched, so the pinned list is returned as is. -/
def deleteSymbol (symbol : String) (history pinned : List String) :
    List String × List String :=
  (removeFirst symbol history, pinned)

/-- The digit-key branch of `Watchlist.on_key`: move the symbol at display
index `cur` (reversed order) so that it lands at display index `target`.
`none` means the guard `target_index < len(history) and current_index !=
target_index` failed and nothing was changed or saved. -/
def jumpToPosition (history : List String) (cur target : Nat) : Option (List String) :=
  if target < history.length ∧ cur ≠ target then
    let j := history.length - 1 - cur
    let s := history.getD j ""
    let h1 := removeAt j history
    some (insertAt (h1.length - target) s h1)
  else none

/-- JSON values that occur in the persisted config document. -/
inductive JVal
  | jStr : String → JVal
  | jList : List String → JVal
deriving DecidableEq

/-- A JSON object, as an ordered association list of key/value pairs. -/
abbrev Doc := List (String × JVal)

/-- First value stored under key `k`, if any. -/
def lookupKey (k : String) : Doc → Option JVal
  | [] => none
  | (k', v) :: rest => if k' = k then some v else lookupKey k rest

/-- Python `d[k] = v` on a dict rendered as an ordered assoc list: replace
the value at an existing key in place, append a fresh key at the end. -/
def setKey : Doc → String → JVal → Doc
  | [], k, v => [(k, v)]
  | (k', v') :: rest, k, v =>
    if k' = k then (k, v) :: rest else (k', v') :: setKey rest k v

/-- Python `current.update(config)`: set every key of `part` in `d`. -/
def updateDoc (d : Doc) (part : Doc) : Doc :=
  part.foldl (fun acc kv => setKey acc kv.1 kv.2) d

/-- The default returned by `load_config` when the file is missing or fails
to parse. -/
def defaultConfig : Doc := [("history", JVal.jList []), ("pinned", JVal.jList [])]

/-- `utils.load_config`: the persisted document when one parses, the default
otherwise (`none` models a missing or corrupt file). -/
def load_config (store : Option Doc) : Doc :=
  store.getD defaultConfig

/-- `utils.save_config`: read-merge-write — load the current document, update
it with the given partial document, and persist the result. -/
def save_config (store : Option Doc) (part : Doc) : Option Doc :=
  some (updateDoc (load_config store) part)

/-- Executable check that the entries of the history belonging to `pinned`
form a trailing block: once an entry in `pinned` appears, every later entry
is also in `pinned`. -/
def pinnedTrailingB (pinned : List String) : List String → Bool
  | [] => true
  | s :: rest =>
    if s ∈ pinned then rest.all (fun x => decide (x ∈ pinned))
    else pinnedTrailingB pinned rest

/-- The ordering invariant of the data model: within the history, all
pinned symbols are contiguous and positioned after all unpinned symbols
(unpinned block first, pinned block after). -/
abbrev PinnedTrailing (history pinned : List String) : Prop :=
  pinnedTrailingB pinned history = true

/-- A 101-entry history (distinct decimal numerals), one past the capacity
bound; a user-edited config file can contain it. -/
def longHistory : List String := (List.range 101).map (fun n => Nat.repr n)

theorem removeFirst_of_not_mem {symbol : String} {l : List String}
    (h : symbol ∉ l) : removeFirst symbol l = l := by
  induction l with
  | nil => rfl
  | cons s rest ih =>
    simp only [List.mem_cons, not_or] at h
    simp [removeFirst, Ne.symm h.1, ih h.2]

theorem removeFirst_append_not_mem_right {symbol : String} {u w : List String}
    (h : symbol ∉ w) : removeFirst symbol (u ++ w) = removeFirst symbol u ++ w := by
  induction u with
  | nil => simp [removeFirst, removeFirst_of_not_mem h]
  | cons s rest ih =>
    by_cases hs : s = symbol <;> simp [removeFirst, hs, ih]

theorem removeFirst_append_not_mem_left {symbol : String} {u w : List String}
    (h : symbol ∉ u) : removeFirst symbol (u ++ w) = u ++ removeFirst symbol w := by
  induction u with
  | nil => rfl
  | cons s rest ih =>
    simp only [List.mem_cons, not_or] at h
    simp [removeFirst, Ne.symm h.1, ih h.2]

theorem mem_of_mem_removeFirst {x symbol : String} {l : List String}
    (h : x ∈ removeFirst symbol l) : x ∈ l := by
  induction l with
  | nil => simpa [removeFirst] using h
  | cons s rest ih =>
    by_cases hs : s = symbol
    · simp only [removeFirst, if_pos hs] at h
      exact List.mem_cons_of_mem s h
    · simp only [removeFirst, if_neg hs, List.mem_cons] at h ⊢
      exact h.imp id ih

theorem not_mem_removeFirst_self {symbol : String} {l : List String}
    (h : l.Nodup) : symbol ∉ removeFirst symbol l := by
  induction l with
  | nil => simp [removeFirst]
  | cons s rest ih =>
    by_cases hs : s = symbol
    · simp only [removeFirst, if_pos hs]
      subst hs
      exact (List.nodup_cons.mp h).1
    · simp only [removeFirst, if_neg hs, List.mem_cons, not_or]
      exact ⟨fun he => hs he.symm, ih (List.nodup_cons.mp h).2⟩

theorem mem_removeFirst_of_ne {x symbol : String} {l : List String}
    (hx : x ∈ l) (hne : x ≠ symbol) : x ∈ removeFirst symbol l := by
  induction l with
  | nil => simpa using hx
  | cons s rest ih =>
    rcases List.mem_cons.mp hx with rfl | hx'
    · simp [removeFirst, fun h => hne h]
    · by_cases hs : s = symbol
      · simpa [removeFirst, hs] using hx'
      · simp only [removeFirst, if_neg hs, List.mem_cons]
        exact Or.inr (ih hx')

theorem length_removeFirst_le (symbol : String) (l : List String) :
    (removeFirst symbol l).length ≤ l.length := by
  induction l with
  | nil => simp [removeFirst]
  | cons s rest ih =>
    by_cases hs : s = symbol <;> simp [removeFirst, hs] <;> omega

theorem length_insertAt (n : Nat) (symbol : String) (l : List String) :
    (insertAt n symbol l).length = l.length + 1 := by
  induction n generalizing l with
  | zero => rfl
  | succ n ih =>
    cases l with
    | nil => rfl
    | cons s rest => simp [insertAt, ih]

theorem insertAt_append_length (symbol : String) (u w : List String) :
    insertAt u.length symbol (u ++ w) = u ++ symbol :: w := by
  induction u with
  | nil => rfl
  | cons s rest ih => simp [insertAt, ih]

theorem insertAt_eq_take_drop {n : Nat} (symbol : String) {l : List String}
    (h : n ≤ l.length) : insertAt n symbol l = l.take n ++ symbol :: l.drop n := by
  induction n generalizing l with
  | zero => simp [insertAt]
  | succ n ih =>
    cases l with
    | nil => simp at h
    | cons s rest =>
      simp only [List.length_cons, Nat.succ_le_succ_iff] at h
      simp [insertAt, ih h]

theorem insertAt_perm (n : Nat) (symbol : String) (l : List String) :
    (insertAt n symbol l).Perm (symbol :: l) := by
  induction n generalizing l with
  | zero => exact List.Perm.refl _
  | succ n ih =>
    cases l with
    | nil => exact List.Perm.refl _
    | cons s rest =>
      exact (List.Perm.cons s (ih rest)).trans (List.Perm.swap symbol s rest)

theorem length_removeAt {n : Nat} {l : List String} (h : n < l.length) :
    (removeAt n l).length = l.length - 1 := by
  induction n generalizing l with
  | zero => cases l with
    | nil => simp at h
    | cons s rest => simp [removeAt]
  | succ n ih =>
    cases l with
    | nil => simp at h
    | cons s rest =>
      simp only [List.length_cons, Nat.succ_lt_succ_iff] at h
      simp only [removeAt, List.length_cons, ih h]
      omega

theorem perm_removeAt {n : Nat} {l : List String} (d : String) (h : n < l.length) :
    l.Perm (l.getD n d :: removeAt n l) := by
  induction n generalizing l with
  | zero => cases l with
    | nil => simp at h
    | cons s rest => simp [removeAt]
  | succ n ih =>
    cases l with
    | nil => simp at h
    | cons s rest =>
      simp only [List.length_cons, Nat.succ_lt_succ_iff] at h
      have step := List.Perm.cons s (ih h)
      simp only [removeAt, List.getD_cons_succ]
      exact step.trans (List.Perm.swap _ s _)

theorem firstPinnedIdx_le_length (pinned l : List String) :
    firstPinnedIdx pinned l ≤ l.length := by
  induction l with
  | nil => simp [firstPinnedIdx]
  | cons s rest ih =>
    by_cases hs : s ∈ pinned <;> simp [firstPinnedIdx, hs] <;> omega

theorem firstPinnedIdx_append_not_mem {pinned u : List String} (w : List String)
    (h : ∀ x ∈ u, x ∉ pinned) :
    firstPinnedIdx pinned (u ++ w) = u.length + firstPinnedIdx pinned w := by
  induction u with
  | nil => simp
  | cons s rest ih =>
    have hs : s ∉ pinned := h s (List.mem_cons_self s rest)
    have hrest : ∀ x ∈ rest, x ∉ pinned := fun x hx => h x (List.mem_cons_of_mem s hx)
    simp [firstPinnedIdx, hs, ih hrest]
    omega

theorem firstPinnedIdx_of_forall_mem {pinned w : List String}
    (h : ∀ x ∈ w, x ∈ pinned) : firstPinnedIdx pinned w = 0 := by
  cases w with
  | nil => rfl
  | cons s rest => simp [firstPinnedIdx, h s (List.mem_cons_self s rest)]

theorem firstPinnedIdx_congr {p q l : List String}
    (h : ∀ x ∈ l, (x ∈ p ↔ x ∈ q)) : firstPinnedIdx p l = firstPinnedIdx q l := by
  induction l with
  | nil => rfl
  | cons s rest ih =>
    have hs := h s (List.mem_cons_self s rest)
    have hrest : ∀ x ∈ rest, (x ∈ p ↔ x ∈ q) := fun x hx => h x (List.mem_cons_of_mem s hx)
    by_cases hp : s ∈ p
    · simp [firstPinnedIdx, hp, hs.mp hp]
    · have hq : s ∉ q := fun hq => hp (hs.mpr hq)
      simp [firstPinnedIdx, hp, hq, ih hrest]

theorem not_mem_of_mem_take_firstPinnedIdx {pinned l : List String} {x : String}
    (h : x ∈ l.take (firstPinnedIdx pinned l)) : x ∉ pinned := by
  induction l with
  | nil => simp [firstPinnedIdx] at h
  | cons s rest ih =>
    by_cases hs : s ∈ pinned
    · simp [firstPinnedIdx, hs] at h
    · simp only [firstPinnedIdx, if_neg hs, List.take_succ_cons, List.mem_cons] at h
      rcases h with rfl | h'
      · exact hs
      · exact ih h'

theorem head_drop_firstPinnedIdx {pinned l : List String} {hd : String}
    (h : (l.drop (firstPinnedIdx pinned l)).head? = some hd) : hd ∈ pinned := by
  induction l with
  | nil => simp [firstPinnedIdx] at h
  | cons s rest ih =>
    by_cases hs : s ∈ pinned
    · simp [firstPinnedIdx, hs] at h
      exact h ▸ hs
    · simp only [firstPinnedIdx, if_neg hs, List.drop_succ_cons] at h
      exact ih h

theorem pinnedTrailingB_of_forall_mem {pinned l : List String}
    (h : ∀ x ∈ l, x ∈ pinned) : pinnedTrailingB pinned l = true := by
  cases l with
  | nil => rfl
  | cons s rest =>
    have hs : s ∈ pinned := h s (List.mem_cons_self s rest)
    simp only [pinnedTrailingB, if_pos hs, List.all_eq_true, decide_eq_true_eq]
    exact fun x hx => h x (List.mem_cons_of_mem s hx)

theorem pinnedTrailing_append {pinned u w : List String}
    (hu : ∀ x ∈ u, x ∉ pinned) (hw : ∀ x ∈ w, x ∈ pinned) :
    PinnedTrailing (u ++ w) pinned := by
  induction u with
  | nil =>
    show pinnedTrailingB pinned ([] ++ w) = true
    simpa using pinnedTrailingB_of_forall_mem hw
  | cons s rest ih =>
    have hs : s ∉ pinned := hu s (List.mem_cons_self s rest)
    have hrest : ∀ x ∈ rest, x ∉ pinned := fun x hx => hu x (List.mem_cons_of_mem s hx)
    show pinnedTrailingB pinned (s :: (rest ++ w)) = true
    simp only [pinnedTrailingB, if_neg hs]
    exact ih hrest

theorem pinnedTrailing_decomp {history pinned : List String}
    (h : PinnedTrailing history pinned) :
    ∃ u w, history = u ++ w ∧ (∀ x ∈ u, x ∉ pinned) ∧ (∀ x ∈ w, x ∈ pinned) := by
  induction history with
  | nil => exact ⟨[], [], rfl, by simp, by simp⟩
  | cons s rest ih =>
    by_cases hs : s ∈ pinned
    · have hall : ∀ x ∈ rest, x ∈ pinned := by
        have := h
        simp only [PinnedTrailing, pinnedTrailingB, if_pos hs, List.all_eq_true,
          decide_eq_true_eq] at this
        exact this
      refine ⟨[], s :: rest, rfl, by simp, ?_⟩
      intro x hx
      rcases List.mem_cons.mp hx with rfl | hx'
      · exact hs
      · exact hall x hx'
    · have h' : PinnedTrailing rest pinned := by
        simpa only [PinnedTrailing, pinnedTrailingB, if_neg hs] using h
      obtain ⟨u, w, heq, hu, hw⟩ := ih h'
      refine ⟨s :: u, w, by rw [heq]; rfl, ?_, hw⟩
      intro x hx
      rcases List.mem_cons.mp hx with rfl | hx'
      · exact hs
      · exact hu x hx'

/-- Claim C3 (amended): starting from a duplicate-free history and pinned
list in which the pinned entries already form a contiguous trailing block,
any pin or unpin operation (the pin-toggle on a selected symbol) again
leaves every pinned entry of the history in a contiguous block that trails
every non-pinned entry in storage order. -/
theorem pinToggle_preserves_pinnedTrailing (symbol : String) {history pinned : List String}
    (hh : history.Nodup) (hp : pinned.Nodup) (inv : PinnedTrailing history pinned) :
    PinnedTrailing (pinToggle symbol history pinned).1 (pinToggle symbol history pinned).2 := by
  obtain ⟨u, w, heq, hu, hw⟩ := pinnedTrailing_decomp inv
  subst heq
  by_cases hmem : symbol ∈ pinned
  · -- unpin branch
    have hdef : pinToggle symbol (u ++ w) pinned =
        (insertAt (firstPinnedIdx (removeFirst symbol pinned) (removeFirst symbol (u ++ w)))
          symbol (removeFirst symbol (u ++ w)), removeFirst symbol pinned) := by
      simp [pinToggle, hmem]
    rw [hdef]
    have hsu : symbol ∉ u := fun hx => hu symbol hx hmem
    have hrw : removeFirst symbol (u ++ w) = u ++ removeFirst symbol w :=
      removeFirst_append_not_mem_left hsu
    have hnw : w.Nodup := hh.of_append_right
    have hw1 : ∀ x ∈ removeFirst symbol w, x ∈ removeFirst symbol pinned := by
      intro x hx
      have hxw : x ∈ w := mem_of_mem_removeFirst hx
      have hxs : x ≠ symbol := by
        intro hxeq
        exact not_mem_removeFirst_self hnw (hxeq ▸ hx)
      exact mem_removeFirst_of_ne (hw x hxw) hxs
    have hu1 : ∀ x ∈ u, x ∉ removeFirst symbol pinned :=
      fun x hx hxp => hu x hx (mem_of_mem_removeFirst hxp)
    have hk : firstPinnedIdx (removeFirst symbol pinned) (u ++ removeFirst symbol w) =
        u.length := by
      rw [firstPinnedIdx_append_not_mem _ hu1, firstPinnedIdx_of_forall_mem hw1]
      omega
    rw [hrw, hk, insertAt_append_length]
    have hgoal : u ++ symbol :: removeFirst symbol w =
        (u ++ [symbol]) ++ removeFirst symbol w := by simp
    rw [hgoal]
    refine pinnedTrailing_append ?_ hw1
    intro x hx
    rcases List.mem_append.mp hx with hx' | hx'
    · exact hu1 x hx'
    · rw [List.mem_singleton.mp hx']
      exact not_mem_removeFirst_self hp
  · -- pin branch
    have hdef : pinToggle symbol (u ++ w) pinned =
        (insertAt (firstPinnedIdx (pinned ++ [symbol]) (removeFirst symbol (u ++ w)))
          symbol (removeFirst symbol (u ++ w)), pinned ++ [symbol]) := by
      simp [pinToggle, hmem]
    rw [hdef]
    have hsw : symbol ∉ w := fun hx => hmem (hw symbol hx)
    have hrw : removeFirst symbol (u ++ w) = removeFirst symbol u ++ w :=
      removeFirst_append_not_mem_right hsw
    have hnu : u.Nodup := hh.of_append_left
    have hu1 : ∀ x ∈ removeFirst symbol u, x ∉ pinned ++ [symbol] := by
      intro x hx
      have hxu : x ∈ u := mem_of_mem_removeFirst hx
      have hxs : x ≠ symbol := by
        intro hxeq
        exact not_mem_removeFirst_self hnu (hxeq ▸ hx)
      simp only [List.mem_append, List.mem_singleton, not_or]
      exact ⟨hu x hxu, hxs⟩
    have hw1 : ∀ x ∈ w, x ∈ pinned ++ [symbol] :=
      fun x hx => List.mem_append.mpr (Or.inl (hw x hx))
    have hk : firstPinnedIdx (pinned ++ [symbol]) (removeFirst symbol u ++ w) =
        (removeFirst symbol u).length := by
      rw [firstPinnedIdx_append_not_mem _ hu1, firstPinnedIdx_of_forall_mem hw1]
      omega
    rw [hrw, hk, insertAt_append_length]
    refine pinnedTrailing_append hu1 ?_
    intro x hx
    rcases List.mem_cons.mp hx with rfl | hx'
    · exact List.mem_append.mpr (Or.inr (List.mem_singleton.mpr rfl))
    · exact hw1 x hx'

/-- Claim C3, counterexample to the unqualified statement: from the
reachable state history `[B, P, A]`, pinned `[P]` (a Shift-move can place
the pinned `P` between unpinned entries), pinning `B` yields history
`[B, P, A]` with pinned `[P, B]`, where the unpinned `A` trails the pinned
block — the pinned entries do not trail every non-pinned entry. -/
theorem pinToggle_pinnedTrailing_cex :
    ¬ PinnedTrailing (pinToggle "B" ["B", "P", "A"] ["P"]).1
      (pinToggle "B" ["B", "P", "A"] ["P"]).2 := by decide

/-- Witness for C3: a concrete run of the preservation theorem. -/
theorem pinToggle_preserves_pinnedTrailing_witness :
    PinnedTrailing (pinToggle "B" ["A", "P"] ["P"]).1 (pinToggle "B" ["A", "P"] ["P"]).2 :=
  pinToggle_preserves_pinnedTrailing "B" (by decide) (by decide) (by decide)

/-- Claim C4: pinning a not-yet-pinned symbol appends it to the pinned list
and moves it, within the (duplicate-free) history, to the position of the
first already-pinned entry — the end of the history when no entry is
pinned — so the newly pinned symbol lands at the front of the pinned
block; in particular `pin "A"` on history `[A, B, C]` with no pins yields
history `[B, C, A]` and pinned `[A]`. -/
theorem pinToggle_pin_spec (symbol : String) {history pinned : List String}
    (hmem : symbol ∉ pinned) (hh : history.Nodup) :
    (pinToggle symbol history pinned).2 = pinned ++ [symbol] ∧
    (pinToggle symbol history pinned).1 =
      (removeFirst symbol history).take
          (firstPinnedIdx pinned (removeFirst symbol history)) ++
        symbol :: (removeFirst symbol history).drop
          (firstPinnedIdx pinned (removeFirst symbol history)) ∧
    (∀ x ∈ (removeFirst symbol history).take
        (firstPinnedIdx pinned (removeFirst symbol history)), x ∉ pinned) ∧
    (∀ hd, ((removeFirst symbol history).drop
        (firstPinnedIdx pinned (removeFirst symbol history))).head? = some hd →
        hd ∈ pinned) ∧
    pinToggle "A" ["A", "B", "C"] [] = (["B", "C", "A"], ["A"]) := by
  have hdef : pinToggle symbol history pinned =
      (insertAt (firstPinnedIdx (pinned ++ [symbol]) (removeFirst symbol history))
        symbol (removeFirst symbol history), pinned ++ [symbol]) := by
    simp [pinToggle, hmem]
  have hns : symbol ∉ removeFirst symbol history := not_mem_removeFirst_self hh
  have hcongr : firstPinnedIdx (pinned ++ [symbol]) (removeFirst symbol history) =
      firstPinnedIdx pinned (removeFirst symbol history) := by
    refine firstPinnedIdx_congr ?_
    intro x hx
    have hxs : x ≠ symbol := fun he => hns (he ▸ hx)
    simp [List.mem_append, hxs]
  refine ⟨by rw [hdef], ?_,
    fun x hx => not_mem_of_mem_take_firstPinnedIdx hx,
    fun hd hhd => head_drop_firstPinnedIdx hhd, by decide⟩
  rw [hdef]
  simp only
  rw [hcongr, insertAt_eq_take_drop symbol (firstPinnedIdx_le_length _ _)]

/-- Witness for C4: the theorem run on the spec's own scenario. -/
theorem pinToggle_pin_spec_witness :
    "A" ∉ ([] : List String) ∧ ["A", "B", "C"].Nodup ∧
    (pinToggle "A" ["A", "B", "C"] []).2 = [] ++ ["A"] :=
  ⟨by decide, by decide, (pinToggle_pin_spec "A" (by decide) (by decide)).1⟩

theorem length_submitInsertPhase_le (symbol : String) (history pinned : List String) :
    (submitInsertPhase symbol history pinned).length ≤ history.length + 1 := by
  by_cases hmem : symbol ∈ pinned
  · simp [submitInsertPhase, hmem]
  · have hrm := length_removeFirst_le symbol history
    simp [submitInsertPhase, hmem, length_insertAt]
    omega

theorem length_submitSymbol_le (symbol : String) {history pinned : List String}
    (hlen : history.length ≤ 100) :
    (submitSymbol symbol history pinned).history.length ≤ 100 := by
  have hins := length_submitInsertPhase_le symbol history pinned
  by_cases hgt : 100 < (submitInsertPhase symbol history pinned).length
  · have hres : (submitSymbol symbol history pinned).history =
        (submitInsertPhase symbol history pinned).tail := by
      simp [submitSymbol, hgt]
    rw [hres, List.length_tail]
    omega
  · have hres : (submitSymbol symbol history pinned).history =
        submitInsertPhase symbol history pinned := by
      simp [submitSymbol, hgt]
    rw [hres]
    omega

/-- Claim C1 (amended): submitting a symbol that is not pinned removes it
from the history if present and inserts it immediately before the first
entry of the history that belongs to the pinned set (at the end of the
history when no entry is pinned); in particular, with history
`[AAPL, MSFT, GOOG]` and pinned `[MSFT]`, `submit "TSLA"` yields history
`[AAPL, TSLA, MSFT, GOOG]` — inserted directly before `MSFT`, the first
pinned entry, not after `GOOG`. -/
theorem submit_unpinned_insert_spec (symbol : String) {history pinned : List String}
    (hmem : symbol ∉ pinned) (hlen : history.length ≤ 99) :
    (submitSymbol symbol history pinned).history =
      (removeFirst symbol history).take
          (firstPinnedIdx pinned (removeFirst symbol history)) ++
        symbol :: (removeFirst symbol history).drop
          (firstPinnedIdx pinned (removeFirst symbol history)) ∧
    (∀ x ∈ (removeFirst symbol history).take
        (firstPinnedIdx pinned (removeFirst symbol history)), x ∉ pinned) ∧
    (∀ hd, ((removeFirst symbol history).drop
        (firstPinnedIdx pinned (removeFirst symbol history))).head? = some hd →
        hd ∈ pinned) ∧
    (submitSymbol "TSLA" ["AAPL", "MSFT", "GOOG"] ["MSFT"]).history =
      ["AAPL", "TSLA", "MSFT", "GOOG"] := by
  have hphase : submitInsertPhase symbol history pinned =
      insertAt (firstPinnedIdx pinned (removeFirst symbol history)) symbol
        (removeFirst symbol history) := by
    simp [submitInsertPhase, hmem]
  have hlen2 : ¬ 100 < (submitInsertPhase symbol history pinned).length := by
    have := length_removeFirst_le symbol history
    rw [hphase, length_insertAt]
    omega
  have hres : (submitSymbol symbol history pinned).history =
      submitInsertPhase symbol history pinned := by
    simp [submitSymbol, hlen2]
  refine ⟨?_, fun x hx => not_mem_of_mem_take_firstPinnedIdx hx,
    fun hd hhd => head_drop_firstPinnedIdx hhd, by decide⟩
  rw [hres, hphase, insertAt_eq_take_drop symbol (firstPinnedIdx_le_length _ _)]

/-- Claim C1, counterexample to the spec's scenario: the code inserts TSLA
immediately before `MSFT` (the first pinned entry, at index 1), giving
`[AAPL, TSLA, MSFT, GOOG]`, not `[AAPL, GOOG, TSLA, MSFT]`. -/
theorem submit_scenario_cex :
    (submitSymbol "TSLA" ["AAPL", "MSFT", "GOOG"] ["MSFT"]).history ≠
      ["AAPL", "GOOG", "TSLA", "MSFT"] := by decide

/-- Witness for C1: the theorem run on the scenario input. -/
theorem submit_unpinned_insert_spec_witness :
    "TSLA" ∉ ["MSFT"] ∧ (["AAPL", "MSFT", "GOOG"] : List String).length ≤ 99 ∧
    (submitSymbol "TSLA" ["AAPL", "MSFT", "GOOG"] ["MSFT"]).history =
      ["AAPL", "TSLA", "MSFT", "GOOG"] :=
  ⟨by decide, by decide,
    (@submit_unpinned_insert_spec "TSLA" ["AAPL", "MSFT", "GOOG"] ["MSFT"]
      (by decide) (by decide)).2.2.2⟩

/-- Claim C2: starting from a history of at most 100 entries, any sequence
of submissions (with pairwise distinct symbols) keeps the history at 100
entries or fewer — instantiating the symbol list at each prefix gives the
bound after every intermediate submit — and whenever the insertion phase
makes the length exceed 100, the entry at storage index 0 (the oldest) is
evicted, for every pinned set, without checking whether it is pinned. -/
theorem submit_capacity_invariant (h0 pinned : List String) (syms : List String)
    (hlen : h0.length ≤ 100) (hnd : syms.Nodup) :
    (syms.foldl (fun h s => (submitSymbol s h pinned).history) h0).length ≤ 100 ∧
    (∀ (h p : List String) (s : String),
      100 < (submitInsertPhase s h p).length →
      (submitSymbol s h p).history = (submitInsertPhase s h p).tail) := by
  refine ⟨?_, fun h p s hgt => by simp [submitSymbol, hgt]⟩
  clear hnd
  induction syms generalizing h0 with
  | nil => simpa using hlen
  | cons s rest ih =>
    simp only [List.foldl_cons]
    exact ih _ (length_submitSymbol_le s hlen)

/-- Witness for C2: a concrete run over two submissions. -/
theorem submit_capacity_invariant_witness :
    (["A"] : List String).length ≤ 100 ∧ (["B", "C"] : List String).Nodup ∧
    ((["B", "C"].foldl (fun h s => (submitSymbol s h []).history) ["A"]).length ≤ 100) :=
  ⟨by decide, by decide, (submit_capacity_invariant ["A"] [] ["B", "C"] (by decide) (by decide)).1⟩

/-- Claim C8 (amended): when the submitted symbol is already pinned and the
history is within the 100-entry cap, the history (contents and order) is
left unchanged, and the submission still counts as a hit — the caller
proceeds to fetch data for the symbol.  (Beyond the cap the unconditional
eviction still fires, so the length bound is needed.) -/
theorem submit_pinned_noop (symbol : String) {history pinned : List String}
    (hmem : symbol ∈ pinned) (hlen : history.length ≤ 100) :
    (submitSymbol symbol history pinned).history = history ∧
    (submitSymbol symbol history pinned).fetched = true := by
  have hphase : submitInsertPhase symbol history pinned = history := by
    simp [submitInsertPhase, hmem]
  have hnot : ¬ 100 < (submitInsertPhase symbol history pinned).length := by
    rw [hphase]
    omega
  constructor
  · have hres : (submitSymbol symbol history pinned).history =
        submitInsertPhase symbol history pinned := by
      simp [submitSymbol, hnot]
    rw [hres, hphase]
  · rfl

/-- Claim C8, counterexample to the unqualified statement: with a 101-entry
history and the submitted symbol pinned, the capacity check still pops the
oldest entry, so the history changes even though the symbol was pinned. -/
theorem submit_pinned_noop_cex :
    (submitSymbol "0" longHistory ["0"]).history ≠ longHistory := by decide

/-- Witness for C8: a concrete pinned submission inside the cap. -/
theorem submit_pinned_noop_witness :
    "MSFT" ∈ ["MSFT"] ∧ (["AAPL", "MSFT"] : List String).length ≤ 100 ∧
    (submitSymbol "MSFT" ["AAPL", "MSFT"] ["MSFT"]).history = ["AAPL", "MSFT"] :=
  ⟨by decide, by decide, (submit_pinned_noop "MSFT" (by decide) (by decide)).1⟩

theorem findIdxOr_lt_length {current : String} {l : List String} {i : Nat}
    (h : findIdxOr current l = some i) : i < l.length := by
  induction l generalizing i with
  | nil => simp [findIdxOr] at h
  | cons s rest ih =>
    by_cases hs : s = current
    · simp only [findIdxOr, if_pos hs, Option.some.injEq] at h
      simp [← h]
    · simp only [findIdxOr, if_neg hs, Option.map_eq_some'] at h
      obtain ⟨a, ha, rfl⟩ := h
      have := ih ha
      simp only [List.length_cons]
      omega

theorem getD_insertAt_self {n : Nat} {l : List String} (symbol d : String)
    (h : n ≤ l.length) : (insertAt n symbol l).getD n d = symbol := by
  induction n generalizing l with
  | zero => rfl
  | succ n ih =>
    cases l with
    | nil => simp at h
    | cons s rest =>
      simp only [List.length_cons, Nat.succ_le_succ_iff] at h
      simpa [insertAt] using ih h

theorem emod_toNat_sub_one {i n : Nat} (hn : n ≠ 0) (hi : i < n) :
    (((i : Int) - 1) % (n : Int)).toNat = (i + n - 1) % n := by
  have h1 : ((i : Int) - 1) = ((i + n - 1 : Nat) : Int) - (n : Int) := by omega
  rw [h1, Int.emod_sub_cancel, ← Int.ofNat_emod, Int.toNat_natCast]

theorem emod_toNat_add_one (i n : Nat) :
    (((i : Int) + 1) % (n : Int)).toNat = (i + 1) % n := by
  have h1 : ((i : Int) + 1) = ((i + 1 : Nat) : Int) := by omega
  rw [h1, ← Int.ofNat_emod, Int.toNat_natCast]

theorem emod_toNat_neg_two {n : Nat} (hn : n ≠ 0) :
    ((-1 - 1 : Int) % (n : Int)).toNat = (n - 2) % n := by
  have h1 : (-1 - 1 : Int) = ((2 * n - 2 : Nat) : Int) - (n : Int) - (n : Int) := by
    omega
  rw [h1, Int.emod_sub_cancel, Int.emod_sub_cancel, ← Int.ofNat_emod, Int.toNat_natCast]
  by_cases h2 : n = 1
  · subst h2
    rfl
  · have h3 : 2 * n - 2 = (n - 2) + n := by omega
    rw [h3, Nat.add_mod_right]

/-- Claim C5: navigation treats the reversed (display-order) history as a
circular buffer.  When the current symbol sits at display index `i`, the
up key yields the display entry at `(i + n - 1) % n` and the down key the
one at `(i + 1) % n`; when the symbol is absent it is treated as display
position `-1`, so up wraps to index `(n - 2) % n` and down lands on the
first display entry; with storage history `[A, B, C]` (display
`[C, B, A]`), navigating up from `C` wraps around to `A`. -/
theorem navigateHistory_circular_spec {history : List String} (current : String)
    (hne : history ≠ []) :
    (∀ i, findIdxOr current history.reverse = some i →
      navigateHistory history current true =
        some (history.reverse.getD
          ((i + history.reverse.length - 1) % history.reverse.length) "") ∧
      navigateHistory history current false =
        some (history.reverse.getD ((i + 1) % history.reverse.length) "")) ∧
    (findIdxOr current history.reverse = none →
      navigateHistory history current true =
        some (history.reverse.getD
          ((history.reverse.length - 2) % history.reverse.length) "") ∧
      navigateHistory history current false =
        some (history.reverse.getD 0 "")) ∧
    navigateHistory ["A", "B", "C"] "C" true = some "A" := by
  have hn : history.reverse.length ≠ 0 := by
    simp only [List.length_reverse]
    intro h0
    exact hne (List.eq_nil_of_length_eq_zero h0)
  refine ⟨?_, ?_, by decide⟩
  · intro i hfind
    have hi : i < history.reverse.length := findIdxOr_lt_length hfind
    constructor
    · simp only [navigateHistory, hfind, if_neg hn, if_true]
      rw [emod_toNat_sub_one hn hi]
    · simp only [navigateHistory, hfind, if_neg hn]
      rw [if_neg (by decide : ¬(false = true))]
      rw [emod_toNat_add_one i history.reverse.length]
  · intro hfind
    constructor
    · simp only [navigateHistory, hfind, if_neg hn, if_true]
      rw [emod_toNat_neg_two hn]
    · simp only [navigateHistory, hfind, if_neg hn]
      rw [if_neg (by decide : ¬(false = true))]
      norm_num

/-- Witness for C5: the theorem run on the spec's own wraparound scenario. -/
theorem navigateHistory_circular_spec_witness :
    (["A", "B", "C"] : List String) ≠ [] ∧
    navigateHistory ["A", "B", "C"] "C" true = some "A" :=
  ⟨by decide, (@navigateHistory_circular_spec ["A", "B", "C"] "C" (by decide)).2.2⟩

/-- Claim C7: with the selected symbol at a valid display index `cur`, a
jump to display index `target` removes the symbol from its storage position
and reinserts it so that it occupies display index `target` in the reversed
ordering, preserving the length and the multiset of entries; when `target`
is out of range or equals the current display index the operation is a
no-op — the guard fails and nothing is changed or saved. -/
theorem jumpToPosition_spec {history : List String} {cur target : Nat}
    (hcur : cur < history.length) :
    (target < history.length → target ≠ cur →
      ∃ r, jumpToPosition history cur target = some r ∧
        r.length = history.length ∧
        r.getD (history.length - 1 - target) "" =
          history.getD (history.length - 1 - cur) "" ∧
        r.Perm history) ∧
    (history.length ≤ target ∨ target = cur →
      jumpToPosition history cur target = none) := by
  constructor
  · intro ht hne
    have hcond : target < history.length ∧ cur ≠ target :=
      ⟨ht, fun h => hne h.symm⟩
    have hj : history.length - 1 - cur < history.length := by omega
    have hlen1 : (removeAt (history.length - 1 - cur) history).length =
        history.length - 1 := length_removeAt hj
    have hk : history.length - 1 - target ≤
        (removeAt (history.length - 1 - cur) history).length := by
      rw [hlen1]
      omega
    refine ⟨insertAt ((removeAt (history.length - 1 - cur) history).length - target)
        (history.getD (history.length - 1 - cur) "")
        (removeAt (history.length - 1 - cur) history), ?_, ?_, ?_, ?_⟩
    · simp [jumpToPosition, hcond]
    · rw [length_insertAt, hlen1]
      omega
    · have harg : (removeAt (history.length - 1 - cur) history).length - target =
          history.length - 1 - target := by
        rw [hlen1]
      rw [harg, getD_insertAt_self _ _ hk]
    · exact (insertAt_perm _ _ _).trans (perm_removeAt "" hj).symm
  · intro hor
    have hcond : ¬(target < history.length ∧ cur ≠ target) := by
      rcases hor with h | h
      · exact fun hc => absurd hc.1 (by omega)
      · exact fun hc => hc.2 h.symm
    simp [jumpToPosition, hcond]

/-- Witness for C7: moving the newest entry `C` of `[A, B, C]` (display
index 0) to display index 2. -/
theorem jumpToPosition_spec_witness :
    (0 : Nat) < (["A", "B", "C"] : List String).length ∧
    (∃ r, jumpToPosition ["A", "B", "C"] 0 2 = some r ∧
      r.length = (["A", "B", "C"] : List String).length ∧
      r.getD ((["A", "B", "C"] : List String).length - 1 - 2) "" =
        (["A", "B", "C"] : List String).getD
          ((["A", "B", "C"] : List String).length - 1 - 0) "" ∧
      r.Perm ["A", "B", "C"]) :=
  ⟨by decide, (@jumpToPosition_spec ["A", "B", "C"] 0 2 (by decide)).1
    (by decide) (by decide)⟩

theorem lookupKey_setKey_self (d : Doc) (k : String) (v : JVal) :
    lookupKey k (setKey d k v) = some v := by
  induction d with
  | nil => simp [setKey, lookupKey]
  | cons kv rest ih =>
    obtain ⟨k', v'⟩ := kv
    by_cases hk : k' = k
    · simp [setKey, hk, lookupKey]
    · simp [setKey, hk, lookupKey, ih]

theorem lookupKey_setKey_ne {k k0 : String} (d : Doc) (v : JVal) (hne : k0 ≠ k) :
    lookupKey k (setKey d k0 v) = lookupKey k d := by
  induction d with
  | nil => simp [setKey, lookupKey, hne]
  | cons kv rest ih =>
    obtain ⟨k', v'⟩ := kv
    by_cases hk : k' = k0
    · subst hk
      simp [setKey, lookupKey, hne]
    · simp [setKey, hk, lookupKey, ih]

theorem lookupKey_eq_none_of_not_mem {k : String} {d : Doc}
    (h : k ∉ d.map Prod.fst) : lookupKey k d = none := by
  induction d with
  | nil => rfl
  | cons kv rest ih =>
    obtain ⟨k', v'⟩ := kv
    simp only [List.map_cons, List.mem_cons, not_or] at h
    simp [lookupKey, Ne.symm h.1, ih h.2]

theorem lookupKey_updateDoc (d part : Doc) (k : String)
    (hnd : (part.map Prod.fst).Nodup) :
    lookupKey k (updateDoc d part) =
      match lookupKey k part with
      | some v => some v
      | none => lookupKey k d := by
  induction part generalizing d with
  | nil => simp [updateDoc, lookupKey]
  | cons kv rest ih =>
    obtain ⟨k0, v0⟩ := kv
    have hnd' : (rest.map Prod.fst).Nodup := (List.nodup_cons.mp (by simpa using hnd)).2
    have hk0 : k0 ∉ rest.map Prod.fst := (List.nodup_cons.mp (by simpa using hnd)).1
    have hstep : updateDoc d ((k0, v0) :: rest) = updateDoc (setKey d k0 v0) rest := rfl
    rw [hstep, ih (setKey d k0 v0) hnd']
    by_cases hk : k0 = k
    · subst hk
      have hnone : lookupKey k0 rest = none := lookupKey_eq_none_of_not_mem hk0
      simp [hnone, lookupKey, lookupKey_setKey_self]
    · have hhead : lookupKey k ((k0, v0) :: rest) = lookupKey k rest := by
        simp [lookupKey, hk]
      rw [hhead]
      cases hcase : lookupKey k rest with
      | some v => rfl
      | none => simp [lookupKey_setKey_ne d v0 hk]

/-- Claim C6: saving a partial document (with pairwise distinct keys) over a
previously persisted document and loading again yields a document where
every key of the partial maps to the partial's value, and every other key
— including keys unknown to the history/pinned schema — keeps its prior
value. -/
theorem save_load_roundtrip (d part : Doc) (hnd : (part.map Prod.fst).Nodup)
    (k : String) :
    (∀ v, lookupKey k part = some v →
      lookupKey k (load_config (save_config (some d) part)) = some v) ∧
    (lookupKey k part = none →
      lookupKey k (load_config (save_config (some d) part)) = lookupKey k d) := by
  have hload : load_config (save_config (some d) part) = updateDoc d part := rfl
  constructor
  · intro v hv
    rw [hload, lookupKey_updateDoc d part k hnd, hv]
  · intro hv
    rw [hload, lookupKey_updateDoc d part k hnd, hv]

/-- Witness for C6: overwriting `history` preserves the prior `pinned` and
an unknown `extra` key survives under the written `history`. -/
theorem save_load_roundtrip_witness :
    (([("history", JVal.jList ["A"])] : Doc).map Prod.fst).Nodup ∧
    lookupKey "pinned" (load_config (save_config
      (some [("history", JVal.jList []), ("pinned", JVal.jList ["P"]),
        ("extra", JVal.jStr "x")])
      [("history", JVal.jList ["A"])])) =
      lookupKey "pinned" [("history", JVal.jList []), ("pinned", JVal.jList ["P"]),
        ("extra", JVal.jStr "x")] :=
  ⟨by decide,
    (save_load_roundtrip
      [("history", JVal.jList []), ("pinned", JVal.jList ["P"]), ("extra", JVal.jStr "x")]
      [("history", JVal.jList ["A"])] (by decide) "pinned").2 (by decide)⟩

/-- Claim C9 (amended): deleting a symbol removes it from the history only;
the pinned list is left completely unchanged both in memory and on disk
(the merge-write touches only the `history` key, so the persisted `pinned`
value survives), and a previously pinned symbol stays in the pinned list;
however a later submit of that symbol is treated as an already-pinned hit
and does not re-insert it, so the symbol does not resurface in the
history. -/
theorem delete_keeps_pinned (symbol : String) {history pinned : List String}
    (hmem : symbol ∈ pinned) (hnd : history.Nodup) (hlen : history.length ≤ 100) :
    (deleteSymbol symbol history pinned).2 = pinned ∧
    (deleteSymbol symbol history pinned).1 = removeFirst symbol history ∧
    symbol ∈ (deleteSymbol symbol history pinned).2 ∧
    (∀ d : Doc, lookupKey "pinned" (load_config (save_config (some d)
        [("history", JVal.jList (deleteSymbol symbol history pinned).1)])) =
      lookupKey "pinned" d) ∧
    (submitSymbol symbol (deleteSymbol symbol history pinned).1
        (deleteSymbol symbol history pinned).2).history = removeFirst symbol history ∧
    symbol ∉ (submitSymbol symbol (deleteSymbol symbol history pinned).1
        (deleteSymbol symbol history pinned).2).history := by
  have hdel1 : (deleteSymbol symbol history pinned).1 = removeFirst symbol history := rfl
  have hdel2 : (deleteSymbol symbol history pinned).2 = pinned := rfl
  have hphase : submitInsertPhase symbol (removeFirst symbol history) pinned =
      removeFirst symbol history := by
    simp [submitInsertPhase, hmem]
  have hnot : ¬ 100 < (submitInsertPhase symbol (removeFirst symbol history)
      pinned).length := by
    have := length_removeFirst_le symbol history
    rw [hphase]
    omega
  have hsub : (submitSymbol symbol (removeFirst symbol history) pinned).history =
      removeFirst symbol history := by
    have hres : (submitSymbol symbol (removeFirst symbol history) pinned).history =
        submitInsertPhase symbol (removeFirst symbol history) pinned := by
      simp [submitSymbol, hnot]
    rw [hres, hphase]
  refine ⟨rfl, rfl, hmem, ?_, ?_, ?_⟩
  · intro d
    have hupd : load_config (save_config (some d)
        [("history", JVal.jList (deleteSymbol symbol history pinned).1)]) =
        setKey d "history" (JVal.jList (deleteSymbol symbol history pinned).1) := rfl
    rw [hupd]
    exact lookupKey_setKey_ne d _ (by decide)
  · rw [hdel1, hdel2, hsub]
  · rw [hdel1, hdel2, hsub]
    exact not_mem_removeFirst_self hnd

/-- Claim C9, counterexample to the "resurfaces" clause: delete the pinned
symbol `A` from history `[A, B]`, then submit `A` again — the submission
hits the already-pinned branch and does not re-insert `A`, so `A` is not in
the history afterwards and cannot resurface in the watchlist (which shows
history entries only). -/
theorem delete_resurface_cex :
    "A" ∉ (submitSymbol "A" (deleteSymbol "A" ["A", "B"] ["A"]).1
      (deleteSymbol "A" ["A", "B"] ["A"]).2).history := by decide

/-- Witness for C9: the amended theorem run on the same concrete state. -/
theorem delete_keeps_pinned_witness :
    "A" ∈ ["A"] ∧ (["A", "B"] : List String).Nodup ∧
    (["A", "B"] : List String).length ≤ 100 ∧
    (deleteSymbol "A" ["A", "B"] ["A"]).2 = ["A"] :=
  ⟨by decide, by decide, by decide,
    (@delete_keeps_pinned "A" ["A", "B"] ["A"] (by decide) (by decide) (by decide)).1⟩

/-- Claim C10: submitting an input whose stripped value is the empty string
is a complete no-op at the public interface: the history and pinned set are
unchanged, nothing is persisted, and no data fetch is started. -/
theorem empty_submit_noop (raw : String) (history pinned : List String)
    (hempty : pyStrip raw = "") :
    onInputSubmitted raw history pinned = ⟨history, pinned, false, false⟩ := by
  have hup : pyUpper (pyStrip raw) = "" := by
    rw [hempty]
    rfl
  simp [onInputSubmitted, hup]

/-- Witness for C10: a whitespace-only input. -/
theorem empty_submit_noop_witness :
    (pyStrip "   " = "") ∧
    onInputSubmitted "   " ["A"] ["P"] = ⟨["A"], ["P"], false, false⟩ :=
  ⟨by decide, empty_submit_noop "   " ["A"] ["P"] (by decide)⟩
